import Mathlib

/-! Verification of the netplan-ebs configuration parser.

This file gives a shallow embedding of `src/netplan/parser.py`:
the YAML-like value model, the deep-merge engine (`Parser._combine_dicts`),
the per-file validation and multi-file combination (`Parser._combine_files`),
and the file locator (`Parser.find_files`).  The relationship resolver
(`get_all_interfaces` / `get_physical_interfaces`) lives in a module that
only has callers in the repository, so it is modelled from the spec.
Theorems about the stated behaviour of each component follow the
definitions. -/

namespace Netplan

/-- YAML-like values as produced by the document decoder: scalars
(integers, strings, booleans, null), sequences, and mappings.  Mappings
are association lists in insertion order, as Python dicts preserve
insertion order and string keys. -/
inductive Value : Type where
  | vInt : Int → Value
  | vStr : String → Value
  | vBool : Bool → Value
  | vNull : Value
  | vSeq : List Value → Value
  | vMap : List (String × Value) → Value

/-- Python `d.get(k)` on a string-keyed dict, viewed as an association
list: the value at the first binding of `k`, if any. -/
def alookup {α : Type} : List (String × α) → String → Option α
  | [], _ => none
  | (k', v) :: rest, k => if k' = k then some v else alookup rest k

/-- Python `d[k] = v`: replace the value at the first binding of `k`, or
append the binding at the end when `k` is absent (Python dicts keep the
original insertion position on update and append new keys at the end). -/
def setKey {α : Type} : List (String × α) → String → α → List (String × α)
  | [], k, v => [(k, v)]
  | (k', v') :: rest, k, v =>
      if k' = k then (k, v) :: rest else (k', v') :: setKey rest k v

@[simp]
theorem alookup_nil {α : Type} (k : String) : alookup ([] : List (String × α)) k = none := rfl

@[simp]
theorem alookup_cons {α : Type} (k' k : String) (v : α) (rest : List (String × α)) :
    alookup ((k', v) :: rest) k = if k' = k then some v else alookup rest k := rfl

theorem alookup_setKey_self {α : Type} (m : List (String × α)) (k : String) (v : α) :
    alookup (setKey m k v) k = some v := by
  induction m with
  | nil => simp [setKey, alookup]
  | cons p rest ih =>
      obtain ⟨k', v'⟩ := p
      by_cases h : k' = k
      · simp [setKey, h, alookup]
      · simp [setKey, h, alookup, ih]

theorem alookup_setKey_ne {α : Type} (m : List (String × α)) (k k' : String) (v : α)
    (h : k' ≠ k) : alookup (setKey m k v) k' = alookup m k' := by
  have h' : k ≠ k' := fun hh => h hh.symm
  induction m with
  | nil => simp [setKey, alookup, h']
  | cons p rest ih =>
      obtain ⟨k'', v''⟩ := p
      by_cases hk : k'' = k
      · subst hk
        simp [setKey, alookup, h']
      · simp [setKey, hk, alookup, ih]

theorem alookup_eq_none_iff {α : Type} (m : List (String × α)) (k : String) :
    alookup m k = none ↔ k ∉ m.map Prod.fst := by
  induction m with
  | nil => simp
  | cons p rest ih =>
      obtain ⟨k', v⟩ := p
      by_cases h : k' = k
      · subst h
        simp [alookup]
      · have h' : k ≠ k' := fun hh => h hh.symm
        simp [alookup, h, ih, h']

theorem alookup_isSome_of_mem_keys {α : Type} (m : List (String × α)) (k : String)
    (h : k ∈ m.map Prod.fst) : (alookup m k).isSome := by
  cases hm : alookup m k with
  | none => exact absurd ((alookup_eq_none_iff m k).mp hm) (by simp [h])
  | some v => rfl

theorem alookup_mem {α : Type} (m : List (String × α)) (k : String) (v : α)
    (h : alookup m k = some v) : (k, v) ∈ m := by
  induction m with
  | nil => simp [alookup] at h
  | cons p rest ih =>
      obtain ⟨k', v'⟩ := p
      by_cases hk : k' = k
      · subst hk
        simp [alookup] at h
        simp [h]
      · simp [alookup, hk] at h
        exact List.mem_cons_of_mem _ (ih h)

theorem keys_setKey_of_mem {α : Type} (m : List (String × α)) (k : String) (v : α)
    (h : k ∈ m.map Prod.fst) : (setKey m k v).map Prod.fst = m.map Prod.fst := by
  induction m with
  | nil => simp at h
  | cons p rest ih =>
      obtain ⟨k', v'⟩ := p
      by_cases hk : k' = k
      · simp [setKey, hk]
      · rw [List.map_cons] at h
        rcases List.mem_cons.mp h with h | h
        · exact absurd h.symm hk
        · simp [setKey, hk, ih h]

theorem keys_setKey_of_not_mem {α : Type} (m : List (String × α)) (k : String) (v : α)
    (h : k ∉ m.map Prod.fst) : (setKey m k v).map Prod.fst = m.map Prod.fst ++ [k] := by
  induction m with
  | nil => simp [setKey]
  | cons p rest ih =>
      obtain ⟨k', v'⟩ := p
      rw [List.map_cons] at h
      have h1 : ¬k' = k := fun hh => h (by simp [hh])
      have h2 : k ∉ rest.map Prod.fst := fun hh => h (by simp [hh])
      simp [setKey, h1, ih h2]

theorem mem_setKey {α : Type} (m : List (String × α)) (k : String) (v : α) (p : String × α)
    (h : p ∈ setKey m k v) : p ∈ m ∨ p = (k, v) := by
  induction m with
  | nil =>
      simp [setKey] at h
      simp [h]
  | cons q rest ih =>
      obtain ⟨k', v'⟩ := q
      by_cases hk : k' = k
      · simp [setKey, hk] at h
        rcases h with h | h
        · simp [h]
        · simp [h]
      · simp [setKey, hk] at h
        rcases h with h | h
        · simp [h]
        · rcases ih h with hh | hh
          · simp [hh]
          · simp [hh]

/-! ## The deep-merge engine: `Parser._combine_dicts`

Python mutates `cur` in place; the embedding returns the new value of
`cur`.  A raised exception (the code calls `.extend` on a non-list, or
iterates a non-dict) is modelled as `none`.  The dispatch follows the
source exactly: it examines the type of the NEW value (`isinstance(value,
list)` / `isinstance(value, dict)`), not of the existing one.  The one
subtle case: recursing with a non-dict `cur[key]` and an EMPTY new dict
performs no iteration in Python and succeeds as a no-op, so it is
modelled as keeping the existing value. -/

mutual

/-- The body of one iteration of `_combine_dicts` for a key present in
both dictionaries: `old` is `cur[key]`, the second argument is `value`.
`none` models a raised exception. -/
def combineVal : Value → Value → Option Value
  | old, .vSeq nl =>
      match old with
      | .vSeq ol => some (.vSeq (ol ++ nl))
      | _ => none
  | old, .vMap nm =>
      match old with
      | .vMap om => (combineDicts om nm).map Value.vMap
      | _ => if nm.isEmpty then some old else none
  | _, v => some v
termination_by old v => sizeOf v

/-- `Parser._combine_dicts(cur, new)`: fold the bindings of `new` into
`cur` in iteration order. -/
def combineDicts : List (String × Value) → List (String × Value) → Option (List (String × Value))
  | cur, [] => some cur
  | cur, (k, v) :: rest =>
      match alookup cur k with
      | none => combineDicts (setKey cur k v) rest
      | some old =>
          match combineVal old v with
          | some w => combineDicts (setKey cur k w) rest
          | none => none
termination_by cur new => sizeOf new

end

/-! ## The spec's reading of the merge rules

`specMergeVal` / `specMergeDicts` transcribe the CLAIM's wording, which
keys the per-key dispatch on the EXISTING value: existing sequence →
append, existing mapping → recurse, any other existing type → replace
outright with the new value.  The claim does not say what happens when
the existing value is a sequence or mapping but the new one is of a
different kind; the catch-all branch replaces, and the kind-compatibility
hypothesis of the comparison theorem makes those branches unreachable. -/

mutual

/-- The claim's per-key combination rule, dispatching on the existing
value `old`. -/
def specMergeVal : Value → Value → Value
  | .vSeq ol, .vSeq nl => .vSeq (ol ++ nl)
  | .vMap om, .vMap nm => .vMap (specMergeDicts om nm)
  | _, nv => nv
termination_by old nv => sizeOf nv

/-- The claim's merge of document `new` into accumulator `cur`, key by
key: a key absent from the accumulator is copied in, a shared key is
combined by `specMergeVal`. -/
def specMergeDicts : List (String × Value) → List (String × Value) → List (String × Value)
  | cur, [] => cur
  | cur, (k, v) :: rest =>
      specMergeDicts
        (match alookup cur k with
         | none => setKey cur k v
         | some old => setKey cur k (specMergeVal old v))
        rest
termination_by cur new => sizeOf new

end

/-- `true` on the four scalar-like constructors (ints, strings, booleans,
null): the values the claim groups as "any other existing value type". -/
def isScalar : Value → Bool
  | .vSeq _ => false
  | .vMap _ => false
  | _ => true

mutual

/-- Kind-compatibility of an existing and a new value: both sequences,
both mappings (recursively compatible on shared keys), or both
scalar-like. -/
def compat : Value → Value → Bool
  | .vSeq _, .vSeq _ => true
  | .vMap om, .vMap nm => compatDicts om nm
  | old, nv => isScalar old && isScalar nv
termination_by old nv => sizeOf nv

/-- Kind-compatibility of two documents: every key present in both has
kind-compatible values. -/
def compatDicts : List (String × Value) → List (String × Value) → Bool
  | _, [] => true
  | cur, (k, v) :: rest =>
      (match alookup cur k with
       | none => true
       | some old => compat old v) && compatDicts cur rest
termination_by cur new => sizeOf new

end

/-- No string occurs twice in the list. -/
def nodupKeys : List String → Bool
  | [] => true
  | k :: rest => !rest.contains k && nodupKeys rest

mutual

/-- Every mapping inside the value (reachable through mappings) has
pairwise-distinct keys, as every decoded Python dict does. -/
def valKeysOk : Value → Bool
  | .vMap m => nodupKeys (m.map Prod.fst) && mapKeysOk m
  | _ => true
termination_by v => sizeOf v

/-- `valKeysOk` for every value bound in the document. -/
def mapKeysOk : List (String × Value) → Bool
  | [] => true
  | (_, v) :: rest => valKeysOk v && mapKeysOk rest
termination_by m => sizeOf m

end

/-- The value of a document at a path of keys, descending through
mappings. -/
def lookupPathV (v : Value) : List String → Option Value
  | [] => some v
  | k :: rest =>
      match v with
      | .vMap m =>
          match alookup m k with
          | none => none
          | some w => lookupPathV w rest
      | _ => none
termination_by p => p.length

/-! ## The loader: `Parser._combine_files` and its inner `parse_file`

The five interface classes of `netplan.interface` are modelled as tags;
`BY_SECTION` keeps the source's keys and section-to-class association. -/

/-- Tags for the interface classes named in `Parser.BY_SECTION`. -/
inductive NPIfaceClass : Type where
  | BondInterface
  | BridgeInterface
  | EthernetInterface
  | VLANInterface
  | WirelessInterface
deriving DecidableEq

/-- `Parser.BY_SECTION`: the section names for the interface classes. -/
def BY_SECTION : List (String × NPIfaceClass) :=
  [("bonds", .BondInterface),
   ("bridges", .BridgeInterface),
   ("ethernets", .EthernetInterface),
   ("vlans", .VLANInterface),
   ("wifis", .WirelessInterface)]

/-- `skeys = set(self.BY_SECTION.keys())`. -/
def sectionNames : List String := BY_SECTION.map Prod.fst

/-- The errors `parse_file` raises, plus the decode failure from
`yaml.load` and the exceptions `_combine_dicts` may raise; each Python
exception (message) is a distinct constructor. -/
inductive PErr : Type where
  | decodeError
  | notADict
  | noNetwork
  | networkNotDict
  | noVersion
  | badVersion (ver : Value)
  | badSections (ms : List String)
  | mergeError

/-- Python `del d[k]`. -/
def delKey (m : List (String × Value)) (k : String) : List (String × Value) :=
  m.filter (fun p => p.1 != k)

/-- `parse_file(fname)` applied to the decoder's output for the file:
`none` models `yaml.load` raising (a decode error).  The checks mirror
the source in order: the contents must be a dict; `contents.get('network')`
must yield a value (YAML null behaves as absent, as `dict.get` returns
`None` for both); `net.get('version')` on a non-dict raises
`AttributeError` (`networkNotDict`); the version must be present and
equal to 2; after `del net['version']`, `sorted(set(net.keys()) - skeys)`
must be empty. -/
def parse_file (doc : Option Value) : Except PErr (List (String × Value)) :=
  match doc with
  | none => .error .decodeError
  | some contents =>
      match contents with
      | .vMap m =>
          match alookup m "network" with
          | none => .error .noNetwork
          | some .vNull => .error .noNetwork
          | some (.vMap net) =>
              match alookup net "version" with
              | none => .error .noVersion
              | some .vNull => .error .noVersion
              | some (.vInt n) =>
                  if n = 2 then
                    let net' := delKey net "version"
                    let missing :=
                      List.insertionSort (· ≤ ·)
                        ((net'.map Prod.fst).dedup.filter
                          (fun k => !sectionNames.contains k))
                    if missing.isEmpty then .ok net' else .error (.badSections missing)
                  else .error (.badVersion (.vInt n))
              | some ver => .error (.badVersion ver)
          | some _ => .error .networkNotDict
      | _ => .error .notADict

/-- The worker loop of `_combine_files`: starting from the accumulator
`raw`, parse each file and merge it in; any exception is wrapped into a
`ParseFileException` carrying the offending file's name. -/
def combineFrom (decode : String → Option Value) (raw : List (String × Value)) :
    List String → Except (String × PErr) (List (String × Value))
  | [] => .ok raw
  | fname :: rest =>
      match parse_file (decode fname) with
      | .error e => .error (fname, e)
      | .ok net =>
          match combineDicts raw net with
          | none => .error (fname, .mergeError)
          | some raw' => combineFrom decode raw' rest

/-- `Parser._combine_files(files)` up to the point where the merged raw
document is complete (the subsequent dispatch is covered separately):
`decode` stands for reading a file and running `yaml.load` on it. -/
def combine_files (decode : String → Option Value) (files : List String) :
    Except (String × PErr) (List (String × Value)) :=
  combineFrom decode [] files

/-! ## The file locator: `Parser.find_files` -/

/-- The filesystem listing capability `find_files` consumes:
`os.path.isdir`, `os.listdir`, `os.path.isfile`. -/
structure FS : Type where
  isdir : String → Bool
  listdir : String → List String
  isfile : String → Bool

/-- `os.path.join(d, f)` for a directory with no trailing separator. -/
def pathJoin (d f : String) : String := d ++ "/" ++ f

/-- `s.endswith('.yaml')`. -/
def endsWithYaml (s : String) : Bool := ".yaml".data.isSuffixOf s.data

/-- `os.path.basename(p)`: the part after the last slash. -/
def basename (p : String) : String :=
  String.mk ((p.data.reverse.takeWhile (fun c => c != '/')).reverse)

/-- The `(f, os.path.join(d, f))` pairs contributed by one directory:
the listed names ending in `.yaml` whose joined path is a file. -/
def dirCandidates (fs : FS) (d : String) : List (String × String) :=
  (((fs.listdir d).filter endsWithYaml).map (fun f => (f, pathJoin d f))).filter
    (fun i => fs.isfile i.2)

/-- The iterable passed to `dict(...)` in `find_files`: the per-directory
pairs of each existing directory, chained in order. -/
def yamlCandidates (fs : FS) (dirs : List String) : List (String × String) :=
  ((dirs.filter fs.isdir).map (dirCandidates fs)).flatten

/-- Python `dict(pairs)`: successive insertion, so a later pair with the
same key overrides an earlier one. -/
def dictOf {α : Type} (pairs : List (String × α)) : List (String × α) :=
  pairs.foldl (fun acc p => setKey acc p.1 p.2) []

/-- `Parser.find_files()` for the directory list `dirs`: the located
paths, one per base name, sorted by base name (`sorted(files.keys())`;
every lookup in the comprehension succeeds, so `filterMap` is `map`). -/
def find_files (fs : FS) (dirs : List String) : List String :=
  let files := dictOf (yamlCandidates fs dirs)
  (List.insertionSort (· ≤ ·) (files.map Prod.fst)).filterMap (fun name => alookup files name)

/-- The claim's description of the locator's per-name resolution: the
occurrence of `name` in the latest (highest-priority) existing directory
that lists it as a `.yaml` file. -/
def latestYamlPath (fs : FS) (dirs : List String) (name : String) : Option String :=
  (((dirs.filter fs.isdir).filter
      (fun d => (fs.listdir d).contains name && endsWithYaml name
        && fs.isfile (pathJoin d name))).getLast?).map (fun d => pathJoin d name)

/-- A small concrete filesystem for exercising the locator: two
directories, an overridden base name, and a non-yaml entry. -/
def sampleFS : FS where
  isdir := fun d => d == "/lib" || d == "/etc"
  listdir := fun d =>
    if d == "/lib" then ["b.yaml", "a.yaml", "notes.txt"]
    else if d == "/etc" then ["b.yaml"] else []
  isfile := fun _ => true

/-! ## The relationship resolver

Modelled from the spec: the repository's `netplan.config` module (the
`NetPlan` container with `get_all_interfaces` and
`get_physical_interfaces`) and the `netplan.interface` classes are not
under `src/`, only their callers are.  Spec basis: §3 (Bond/Bridge carry
member names, VLAN a single link, Ethernet/Wireless no outgoing
references), §4.4 (worklist closure with a visited set; dangling
references dropped; `get_physical_interfaces` filters the closure to the
reference-free kinds) and §7 (a query naming unknown interfaces fails,
listing exactly the missing names). -/

/-- Modelled from the spec: the five interface kinds with their
kind-specific reference fields (§3). -/
inductive NPIface : Type where
  | bond (members : List String)
  | bridge (members : List String)
  | vlan (link : String)
  | ethernet
  | wireless
deriving DecidableEq

/-- Modelled from the spec: the outgoing reference names of an
interface: Bond/Bridge members, VLAN link, none for Ethernet/Wireless. -/
def refsOf : NPIface → List String
  | .bond members => members
  | .bridge members => members
  | .vlan link => [link]
  | .ethernet => []
  | .wireless => []

/-- Modelled from the spec: an interface kind with no outgoing
references (Ethernet, Wireless) — a physical leaf. -/
def isPhysical : NPIface → Bool
  | .ethernet => true
  | .wireless => true
  | _ => false

/-- A Config Container: the ordered mapping from interface name to
interface. -/
abbrev NPConfig : Type := List (String × NPIface)

/-- The number of configuration keys not yet visited; the part of the
closure's termination measure that shrinks when a node is visited. -/
def unvisitedCount (cfg : NPConfig) (visited : List String) : Nat :=
  ((cfg.map Prod.fst).filter (fun k => !visited.contains k)).length

theorem length_filter_le_of_imp (p q : String → Bool) (l : List String)
    (h : ∀ x, q x = true → p x = true) :
    (l.filter q).length ≤ (l.filter p).length := by
  induction l with
  | nil => simp
  | cons a t ih =>
      by_cases hq : q a = true
      · simp [List.filter_cons, hq, h a hq]
        omega
      · by_cases hp : p a = true
        · simp [List.filter_cons, hq, hp]
          omega
        · simp [List.filter_cons, hq, hp]
          exact ih

theorem length_filter_lt_of_imp (p q : String → Bool) (l : List String) (n : String)
    (himp : ∀ x, q x = true → p x = true) (hmem : n ∈ l)
    (hpn : p n = true) (hqn : q n = false) :
    (l.filter q).length < (l.filter p).length := by
  induction l with
  | nil => simp at hmem
  | cons a t ih =>
      rcases List.mem_cons.mp hmem with h | h
      · subst h
        rw [List.filter_cons, List.filter_cons, hpn, hqn]
        simp only [if_pos, Bool.false_eq_true, if_neg, List.length_cons]
        exact Nat.lt_succ_of_le (length_filter_le_of_imp p q t himp)
      · rw [List.filter_cons, List.filter_cons]
        cases hq : q a with
        | true =>
            rw [himp a hq]
            simp only [if_pos, List.length_cons]
            exact Nat.succ_lt_succ (ih h)
        | false =>
            simp only [Bool.false_eq_true, if_neg]
            cases hp : p a with
            | true =>
                simp only [if_pos, List.length_cons]
                exact Nat.lt_succ_of_lt (ih h)
            | false =>
                simp only [Bool.false_eq_true, if_neg]
                exact ih h

theorem unvisitedCount_visit_lt (cfg : NPConfig) (visited : List String) (n : String)
    (hmem : n ∈ cfg.map Prod.fst) (hnv : visited.contains n = false) :
    unvisitedCount cfg (visited ++ [n]) < unvisitedCount cfg visited := by
  apply length_filter_lt_of_imp _ _ _ n
  · intro x hx
    simp at hx ⊢
    intro hc
    exact absurd (Or.inl hc) (by simpa using hx)
  · exact hmem
  · simpa using hnv
  · simp

/-- Modelled from the spec: the worklist closure (§4.4).  Pop a name:
skip it if already visited; drop it if not a key of the container
(dangling reference); otherwise mark it visited and push its outgoing
references. -/
def closure (cfg : NPConfig) (visited : List String) : List String → List String
  | [] => visited
  | n :: work =>
      if hv : visited.contains n then closure cfg visited work
      else
        match hl : alookup cfg n with
        | none => closure cfg visited work
        | some iface => closure cfg (visited ++ [n]) (work ++ refsOf iface)
termination_by work => (unvisitedCount cfg visited, work.length)
decreasing_by
  · exact Prod.Lex.right _ (by simp)
  · exact Prod.Lex.right _ (by simp)
  · apply Prod.Lex.left
    apply unvisitedCount_visit_lt
    · exact List.mem_map.mpr ⟨_, alookup_mem _ _ _ (by assumption), rfl⟩
    · simp_all

/-- Modelled from the spec: `get_all_interfaces(seed_names)` — fail
listing exactly the seed names not present in the container, otherwise
return the container restricted to the closure of the seeds, preserving
each interface's identity. -/
def get_all_interfaces (cfg : NPConfig) (seeds : List String) :
    Except (List String) NPConfig :=
  let missing := seeds.filter (fun s => (alookup cfg s).isNone)
  if missing.isEmpty then
    .ok (cfg.filter (fun p => (closure cfg [] seeds).contains p.1))
  else .error missing

/-- Modelled from the spec: `get_physical_interfaces(seed_names)` —
first compute `get_all_interfaces(seed_names)`, then keep only the
reference-free kinds. -/
def get_physical_interfaces (cfg : NPConfig) (seeds : List String) :
    Except (List String) NPConfig :=
  (get_all_interfaces cfg seeds).map (fun res => res.filter (fun p => isPhysical p.2))

/-! ## Lemmas about the relationship resolver -/

theorem closure_nil (cfg : NPConfig) (visited : List String) :
    closure cfg visited [] = visited := by
  simp [closure]

theorem closure_cons_visited (cfg : NPConfig) (visited : List String) (n : String)
    (work : List String) (h : visited.contains n = true) :
    closure cfg visited (n :: work) = closure cfg visited work := by
  simp only [closure]
  split
  · rfl
  · rename_i hvf
    exact absurd h hvf

theorem closure_cons_dangling (cfg : NPConfig) (visited : List String) (n : String)
    (work : List String) (h : ¬visited.contains n = true) (hl : alookup cfg n = none) :
    closure cfg visited (n :: work) = closure cfg visited work := by
  simp only [closure]
  split
  · rename_i hvt
    exact absurd hvt h
  · split
    · rfl
    · rename_i iface2 heq
      rw [hl] at heq
      exact Option.noConfusion heq

theorem closure_cons_visit (cfg : NPConfig) (visited : List String) (n : String)
    (work : List String) (iface : NPIface) (h : ¬visited.contains n = true)
    (hl : alookup cfg n = some iface) :
    closure cfg visited (n :: work) = closure cfg (visited ++ [n]) (work ++ refsOf iface) := by
  simp only [closure]
  split
  · rename_i hvt
    exact absurd hvt h
  · split
    · rename_i heq
      rw [hl] at heq
      exact Option.noConfusion heq
    · rename_i iface2 heq
      rw [hl] at heq
      injection heq with hh
      subst hh
      rfl

theorem closure_mem_of_visited (cfg : NPConfig) (visited work : List String) :
    ∀ x ∈ visited, x ∈ closure cfg visited work := by
  refine closure.induct cfg (fun visited work => ∀ x ∈ visited, x ∈ closure cfg visited work)
    ?_ ?_ ?_ ?_ visited work
  · intro visited x hx
    rw [closure_nil]
    exact hx
  · intro visited k rest hv ih x hx
    rw [closure_cons_visited cfg visited k rest hv]
    exact ih x hx
  · intro visited k rest hv hl ih x hx
    rw [closure_cons_dangling cfg visited k rest hv hl]
    exact ih x hx
  · intro visited k rest hv iface hl ih x hx
    rw [closure_cons_visit cfg visited k rest iface hv hl]
    exact ih x (List.mem_append_left _ hx)

theorem closure_mem_of_work (cfg : NPConfig) (visited work : List String) :
    ∀ x ∈ work, (alookup cfg x).isSome → x ∈ closure cfg visited work := by
  refine closure.induct cfg
    (fun visited work => ∀ x ∈ work, (alookup cfg x).isSome → x ∈ closure cfg visited work)
    ?_ ?_ ?_ ?_ visited work
  · intro visited x hx
    simp at hx
  · intro visited k rest hv ih x hx hs
    rw [closure_cons_visited cfg visited k rest hv]
    rcases List.mem_cons.mp hx with hxk | hxr
    · subst hxk
      exact closure_mem_of_visited cfg visited rest x (by simpa using hv)
    · exact ih x hxr hs
  · intro visited k rest hv hl ih x hx hs
    rw [closure_cons_dangling cfg visited k rest hv hl]
    rcases List.mem_cons.mp hx with hxk | hxr
    · subst hxk
      rw [hl] at hs
      simp at hs
    · exact ih x hxr hs
  · intro visited k rest hv iface hl ih x hx hs
    rw [closure_cons_visit cfg visited k rest iface hv hl]
    rcases List.mem_cons.mp hx with hxk | hxr
    · subst hxk
      exact closure_mem_of_visited cfg (visited ++ [x]) (rest ++ refsOf iface) x
        (List.mem_append_right _ (by simp))
    · exact ih x (List.mem_append_left _ hxr) hs

theorem closure_nodup (cfg : NPConfig) (visited work : List String) :
    visited.Nodup → (closure cfg visited work).Nodup := by
  refine closure.induct cfg
    (fun visited work => visited.Nodup → (closure cfg visited work).Nodup)
    ?_ ?_ ?_ ?_ visited work
  · intro visited hnd
    rw [closure_nil]
    exact hnd
  · intro visited k rest hv ih hnd
    rw [closure_cons_visited cfg visited k rest hv]
    exact ih hnd
  · intro visited k rest hv hl ih hnd
    rw [closure_cons_dangling cfg visited k rest hv hl]
    exact ih hnd
  · intro visited k rest hv iface hl ih hnd
    rw [closure_cons_visit cfg visited k rest iface hv hl]
    refine ih ?_
    rw [List.nodup_append]
    refine ⟨hnd, List.nodup_singleton k, ?_⟩
    intro a ha hak
    rw [List.mem_singleton] at hak
    subst hak
    exact hv (by simpa using ha)

theorem isPhysical_refsOf (i : NPIface) (h : isPhysical i = true) : refsOf i = [] := by
  cases i with
  | ethernet => rfl
  | wireless => rfl
  | bond members => simp [isPhysical] at h
  | bridge members => simp [isPhysical] at h
  | vlan link => simp [isPhysical] at h

/-- C2: for seeds all present in the configuration, the related-closure
query succeeds and its result contains every seed; the physical query
returns a sub-list of the closure result; and every interface it returns
is of a reference-free kind (Ethernet or Wireless), with no outgoing
references. -/
theorem resolver_closure_properties (cfg : NPConfig) (seeds : List String)
    (res : NPConfig) (h : get_all_interfaces cfg seeds = .ok res) :
    (∀ s ∈ seeds, s ∈ res.map Prod.fst) ∧
      (∀ pres, get_physical_interfaces cfg seeds = .ok pres →
        (∀ p ∈ pres, p ∈ res) ∧
        (∀ p ∈ pres, isPhysical p.2 = true ∧ refsOf p.2 = [])) := by
  rw [get_all_interfaces] at h
  split at h
  case isFalse => exact absurd h (by simp)
  case isTrue hemp =>
  injection h with h
  constructor
  · intro s hs
    have hsome : (alookup cfg s).isSome := by
      cases hcl : alookup cfg s with
      | some i => rfl
      | none =>
          have : s ∈ seeds.filter (fun s => (alookup cfg s).isNone) :=
            List.mem_filter.mpr ⟨hs, by simp [hcl]⟩
          rw [List.isEmpty_iff] at hemp
          rw [hemp] at this
          simp at this
    obtain ⟨iface, hif⟩ := Option.isSome_iff_exists.mp hsome
    have hmemc : s ∈ closure cfg [] seeds :=
      closure_mem_of_work cfg [] seeds s hs hsome
    have hpair : (s, iface) ∈ cfg := alookup_mem cfg s iface hif
    rw [← h]
    exact List.mem_map.mpr ⟨(s, iface),
      List.mem_filter.mpr ⟨hpair, by simpa using hmemc⟩, rfl⟩
  · intro pres hp
    rw [get_physical_interfaces, get_all_interfaces] at hp
    split at hp
    case isFalse hne => exact absurd (by simpa using hemp) hne
    case isTrue =>
    rw [h] at hp
    replace hp : Except.ok (ε := List String)
        (res.filter (fun p => isPhysical p.2)) = Except.ok pres := hp
    injection hp with hp
    subst hp
    constructor
    · intro p hp
      exact (List.mem_filter.mp hp).1
    · intro p hp
      have hphys : isPhysical p.2 = true := by simpa using (List.mem_filter.mp hp).2
      exact ⟨hphys, isPhysical_refsOf p.2 hphys⟩

/-- Witness for C2 on a VLAN-over-Ethernet configuration with seed
`vlan10`. -/
theorem resolver_closure_properties_witness :
    "vlan10" ∈ ([("eth0", NPIface.ethernet), ("vlan10", NPIface.vlan "eth0")].map
        Prod.fst) ∧
      ("eth0", NPIface.ethernet) ∈
        [("eth0", NPIface.ethernet), ("vlan10", NPIface.vlan "eth0")] ∧
      isPhysical NPIface.ethernet = true ∧ refsOf NPIface.ethernet = [] := by
  have hall : get_all_interfaces [("eth0", NPIface.ethernet), ("vlan10", NPIface.vlan "eth0")]
      ["vlan10"] = .ok [("eth0", NPIface.ethernet), ("vlan10", NPIface.vlan "eth0")] := by
    simp [get_all_interfaces, closure, alookup, refsOf]
  have hphys : get_physical_interfaces
      [("eth0", NPIface.ethernet), ("vlan10", NPIface.vlan "eth0")] ["vlan10"]
      = .ok [("eth0", NPIface.ethernet)] := by
    simp [get_physical_interfaces, get_all_interfaces, closure, alookup, refsOf,
      isPhysical, Except.map, List.filter]
  have hmain := resolver_closure_properties
    [("eth0", NPIface.ethernet), ("vlan10", NPIface.vlan "eth0")] ["vlan10"]
    [("eth0", NPIface.ethernet), ("vlan10", NPIface.vlan "eth0")] hall
  refine ⟨hmain.1 "vlan10" (by simp), ?_, ?_⟩
  · exact (hmain.2 [("eth0", NPIface.ethernet)] hphys).1 ("eth0", NPIface.ethernet)
      (by simp)
  · exact (hmain.2 [("eth0", NPIface.ethernet)] hphys).2 ("eth0", NPIface.ethernet)
      (by simp)

/-- C3: on the two-node cycle (A references B, B references A) the
closure query terminates with exactly {A, B} from either seed — the
functions are total, so evaluation itself is the termination argument —
and in general the visited list never takes the same interface twice. -/
theorem closure_terminates_on_cycle :
    get_all_interfaces [("A", NPIface.bridge ["B"]), ("B", NPIface.bridge ["A"])] ["A"]
        = .ok [("A", NPIface.bridge ["B"]), ("B", NPIface.bridge ["A"])] ∧
      get_all_interfaces [("A", NPIface.bridge ["B"]), ("B", NPIface.bridge ["A"])] ["B"]
        = .ok [("A", NPIface.bridge ["B"]), ("B", NPIface.bridge ["A"])] ∧
      (∀ cfg visited work, visited.Nodup → (closure cfg visited work).Nodup) := by
  refine ⟨?_, ?_, closure_nodup⟩
  · simp [get_all_interfaces, closure, alookup, refsOf]
  · simp [get_all_interfaces, closure, alookup, refsOf]

/-- Witness for C3: the closure on the cycle from seed A is
duplicate-free. -/
theorem closure_terminates_on_cycle_witness :
    (closure [("A", NPIface.bridge ["B"]), ("B", NPIface.bridge ["A"])] [] ["A"]).Nodup :=
  closure_terminates_on_cycle.2.2
    [("A", NPIface.bridge ["B"]), ("B", NPIface.bridge ["A"])] [] ["A"] List.nodup_nil

/-! ## Lemmas about the file locator -/

theorem yamlCandidates_nil (fs : FS) : yamlCandidates fs [] = [] := rfl

theorem yamlCandidates_cons (fs : FS) (d : String) (rest : List String) :
    yamlCandidates fs (d :: rest)
      = (if fs.isdir d then dirCandidates fs d else []) ++ yamlCandidates fs rest := by
  cases h : fs.isdir d <;> simp [yamlCandidates, List.filter_cons, h]

theorem foldl_setKey_absent {α : Type} (pairs : List (String × α)) :
    ∀ acc k, k ∉ pairs.map Prod.fst →
      alookup (pairs.foldl (fun acc p => setKey acc p.1 p.2) acc) k = alookup acc k := by
  induction pairs with
  | nil => intro acc k _; rfl
  | cons p rest ih =>
      intro acc k hk
      rw [List.map_cons] at hk
      have h1 : p.1 ≠ k := fun hh => hk (by simp [hh])
      have h2 : k ∉ rest.map Prod.fst := fun hh => hk (by simp [hh])
      rw [List.foldl_cons, ih _ k h2, alookup_setKey_ne acc p.1 k p.2 (fun hh => h1 hh.symm)]

theorem foldl_setKey_const {α : Type} (pairs : List (String × α)) :
    ∀ acc k v, k ∈ pairs.map Prod.fst → (∀ p ∈ pairs, p.1 = k → p.2 = v) →
      alookup (pairs.foldl (fun acc p => setKey acc p.1 p.2) acc) k = some v := by
  induction pairs with
  | nil => intro acc k v hk _; simp at hk
  | cons p rest ih =>
      intro acc k v hk hv
      rw [List.foldl_cons]
      by_cases hkr : k ∈ rest.map Prod.fst
      · exact ih _ k v hkr (fun q hq => hv q (List.mem_cons_of_mem _ hq))
      · have hpk : p.1 = k := by
          rw [List.map_cons] at hk
          rcases List.mem_cons.mp hk with h | h
          · exact h.symm
          · exact absurd h hkr
        rw [foldl_setKey_absent rest _ k hkr, hpk,
          alookup_setKey_self acc k p.2, hv p (by simp) hpk]

theorem mem_foldl_setKey {α : Type} (pairs : List (String × α)) :
    ∀ acc p, p ∈ pairs.foldl (fun acc q => setKey acc q.1 q.2) acc →
      p ∈ acc ∨ p ∈ pairs := by
  induction pairs with
  | nil => intro acc p hp; exact Or.inl hp
  | cons q rest ih =>
      intro acc p hp
      rw [List.foldl_cons] at hp
      rcases ih _ p hp with hp' | hp'
      · rcases mem_setKey acc q.1 q.2 p hp' with hp'' | hp''
        · exact Or.inl hp''
        · right
          rw [hp'']
          simp
      · exact Or.inr (List.mem_cons_of_mem _ hp')

theorem keys_nodup_foldl {α : Type} (pairs : List (String × α)) :
    ∀ acc, ((acc : List (String × α)).map Prod.fst).Nodup →
      ((pairs.foldl (fun acc q => setKey acc q.1 q.2) acc).map Prod.fst).Nodup := by
  induction pairs with
  | nil => intro acc h; exact h
  | cons q rest ih =>
      intro acc h
      rw [List.foldl_cons]
      refine ih _ ?_
      by_cases hq : q.1 ∈ acc.map Prod.fst
      · rw [keys_setKey_of_mem acc q.1 q.2 hq]
        exact h
      · rw [keys_setKey_of_not_mem acc q.1 q.2 hq]
        rw [List.nodup_append]
        refine ⟨h, List.nodup_singleton _, ?_⟩
        intro a ha hak
        rw [List.mem_singleton] at hak
        subst hak
        exact hq ha

theorem mem_dirCandidates (fs : FS) (d : String) (p : String × String)
    (hp : p ∈ dirCandidates fs d) :
    p.2 = pathJoin d p.1 ∧ p.1 ∈ fs.listdir d ∧ endsWithYaml p.1 = true ∧
      fs.isfile (pathJoin d p.1) = true := by
  rw [dirCandidates] at hp
  have hp1 := List.mem_filter.mp hp
  rcases List.mem_map.mp hp1.1 with ⟨f, hf, hfp⟩
  have hfl := List.mem_filter.mp hf
  subst hfp
  exact ⟨rfl, hfl.1, hfl.2, by simpa using hp1.2⟩

theorem dirCandidates_keys (fs : FS) (d : String) (name : String) :
    name ∈ (dirCandidates fs d).map Prod.fst ↔
      (name ∈ fs.listdir d ∧ endsWithYaml name = true ∧
        fs.isfile (pathJoin d name) = true) := by
  constructor
  · intro h
    rcases List.mem_map.mp h with ⟨p, hp, hpn⟩
    have := mem_dirCandidates fs d p hp
    rw [hpn] at this
    exact ⟨this.2.1, this.2.2.1, this.2.2.2⟩
  · rintro ⟨h1, h2, h3⟩
    refine List.mem_map.mpr ⟨(name, pathJoin d name), ?_, rfl⟩
    rw [dirCandidates]
    refine List.mem_filter.mpr ⟨?_, by simpa using h3⟩
    exact List.mem_map.mpr ⟨name, List.mem_filter.mpr ⟨h1, h2⟩, rfl⟩

theorem mem_yamlCandidates (fs : FS) (dirs : List String) (p : String × String)
    (hp : p ∈ yamlCandidates fs dirs) :
    ∃ d, p.2 = pathJoin d p.1 ∧ p.1 ∈ fs.listdir d := by
  rw [yamlCandidates] at hp
  rcases List.mem_flatten.mp hp with ⟨l, hl, hpl⟩
  rcases List.mem_map.mp hl with ⟨d, _, hdl⟩
  subst hdl
  have := mem_dirCandidates fs d p hpl
  exact ⟨d, this.1, this.2.1⟩

theorem getLast?_cons' {α : Type} (a : α) (l : List α) :
    (a :: l).getLast? = match l.getLast? with
      | some x => some x
      | none => some a := by
  cases l with
  | nil => rfl
  | cons b t =>
      rw [List.getLast?_cons_cons]
      cases hx : (b :: t).getLast? with
      | none =>
          have : (b :: t) ≠ [] := by simp
          rw [← List.getLast?_isSome, hx] at this
          simp at this
      | some x => rfl

theorem dirCondition_eval (fs : FS) (name d : String) :
    ((fs.listdir d).contains name && endsWithYaml name && fs.isfile (pathJoin d name))
        = true ↔
      (name ∈ fs.listdir d ∧ endsWithYaml name = true ∧
        fs.isfile (pathJoin d name) = true) := by
  simp [Bool.and_eq_true, and_assoc]

theorem latestYamlPath_nil (fs : FS) (name : String) :
    latestYamlPath fs [] name = none := rfl

theorem latestYamlPath_cons (fs : FS) (d : String) (rest : List String) (name : String) :
    latestYamlPath fs (d :: rest) name
      = match latestYamlPath fs rest name with
        | some p => some p
        | none =>
            if fs.isdir d = true ∧
                ((fs.listdir d).contains name && endsWithYaml name
                  && fs.isfile (pathJoin d name)) = true
            then some (pathJoin d name) else none := by
  rw [latestYamlPath, latestYamlPath]
  by_cases h1 : fs.isdir d = true
  · rw [List.filter_cons, if_pos h1]
    by_cases h2 : ((fs.listdir d).contains name && endsWithYaml name
        && fs.isfile (pathJoin d name)) = true
    · rw [List.filter_cons, if_pos h2, getLast?_cons']
      cases hx : (((rest.filter fs.isdir)).filter
          (fun d => (fs.listdir d).contains name && endsWithYaml name
            && fs.isfile (pathJoin d name))).getLast? with
      | some x => rfl
      | none => exact (if_pos ⟨h1, h2⟩).symm
    · rw [List.filter_cons, if_neg h2]
      cases hx : (((rest.filter fs.isdir)).filter
          (fun d => (fs.listdir d).contains name && endsWithYaml name
            && fs.isfile (pathJoin d name))).getLast? with
      | some x => rfl
      | none => exact (if_neg (fun hh => h2 hh.2)).symm
  · rw [List.filter_cons, if_neg h1]
    cases hx : (((rest.filter fs.isdir)).filter
        (fun d => (fs.listdir d).contains name && endsWithYaml name
          && fs.isfile (pathJoin d name))).getLast? with
    | some x => rfl
    | none => exact (if_neg (fun hh => h1 hh.1)).symm

theorem alookup_yamlFold (fs : FS) (name : String) (dirs : List String) :
    ∀ (acc : List (String × String)),
      alookup ((yamlCandidates fs dirs).foldl (fun acc p => setKey acc p.1 p.2) acc) name
        = match latestYamlPath fs dirs name with
          | some path => some path
          | none => alookup acc name := by
  induction dirs with
  | nil =>
      intro acc
      rw [yamlCandidates_nil, latestYamlPath_nil]
      rfl
  | cons d rest ih =>
      intro acc
      rw [yamlCandidates_cons, List.foldl_append, latestYamlPath_cons]
      by_cases hd : fs.isdir d = true
      · rw [if_pos hd, ih]
        cases hlr : latestYamlPath fs rest name with
        | some p => rfl
        | none =>
            by_cases hcond : name ∈ fs.listdir d ∧ endsWithYaml name = true ∧
                fs.isfile (pathJoin d name) = true
            · rw [foldl_setKey_const (dirCandidates fs d) acc name (pathJoin d name)
                ((dirCandidates_keys fs d name).mpr hcond)
                (fun p hp => by
                  have hmd := mem_dirCandidates fs d p hp
                  intro hpn
                  rw [hmd.1, hpn])]
              rw [if_pos ⟨hd, (dirCondition_eval fs name d).mpr hcond⟩]
            · rw [foldl_setKey_absent (dirCandidates fs d) acc name
                (fun hh => hcond ((dirCandidates_keys fs d name).mp hh))]
              rw [if_neg (fun hh => hcond ((dirCondition_eval fs name d).mp hh.2))]
      · rw [if_neg hd]
        simp only [List.foldl_nil]
        rw [ih]
        cases hlr : latestYamlPath fs rest name with
        | some p => rfl
        | none => rw [if_neg (fun hh => hd hh.1)]

theorem takeWhile_append_stop {α : Type} (p : α → Bool) (l1 : List α) (a : α) (l2 : List α)
    (hall : ∀ x ∈ l1, p x = true) (ha : p a = false) :
    (l1 ++ a :: l2).takeWhile p = l1 := by
  induction l1 with
  | nil => simp [List.takeWhile_cons, ha]
  | cons b t ih =>
      rw [List.cons_append, List.takeWhile_cons, hall b (by simp)]
      simp only [if_pos]
      rw [ih (fun x hx => hall x (List.mem_cons_of_mem _ hx))]

theorem basename_pathJoin (d f : String) (hf : ('/' : Char) ∉ f.data) :
    basename (pathJoin d f) = f := by
  have hdata : (pathJoin d f).data = d.data ++ '/' :: f.data := by
    rw [pathJoin, String.data_append, String.data_append, List.append_assoc]
    rfl
  have hrev : (pathJoin d f).data.reverse = f.data.reverse ++ '/' :: d.data.reverse := by
    rw [hdata, List.reverse_append, List.reverse_cons, List.append_assoc]
    rfl
  have htake : (pathJoin d f).data.reverse.takeWhile (fun c => c != '/') = f.data.reverse := by
    rw [hrev]
    refine takeWhile_append_stop _ _ _ _ ?_ (by simp)
    intro x hx
    rw [List.mem_reverse] at hx
    simp only [bne_iff_ne, ne_eq, decide_eq_true_eq]
    intro hxc
    rw [hxc] at hx
    exact hf hx
  rw [basename, htake, List.reverse_reverse]

theorem filterMap_map_id {α : Type} (g : α → String) (f : String → Option α) :
    ∀ l : List String, (∀ x ∈ l, ∃ y, f x = some y ∧ g y = x) →
      ((l.filterMap f).map g) = l := by
  intro l
  induction l with
  | nil => intro _; rfl
  | cons x t ih =>
      intro hl
      rcases hl x (by simp) with ⟨y, hy, hgy⟩
      rw [List.filterMap_cons, hy, List.map_cons, hgy,
        ih (fun z hz => hl z (List.mem_cons_of_mem _ hz))]

/-- One path per distinct base filename, resolved in the
highest-priority directory: the dictionary built by `find_files` maps
each base name to the path the claim describes. -/
theorem alookup_dictOf_eq_latest (fs : FS) (dirs : List String) (name : String) :
    alookup (dictOf (yamlCandidates fs dirs)) name = latestYamlPath fs dirs name := by
  show alookup ((yamlCandidates fs dirs).foldl (fun acc p => setKey acc p.1 p.2) []) name
    = latestYamlPath fs dirs name
  rw [alookup_yamlFold fs name dirs []]
  cases latestYamlPath fs dirs name with
  | some p => rfl
  | none => rfl

/-- C8: the file locator returns an empty list for an empty directory
list; silently skips a directory that does not exist; resolves each base
filename to its occurrence in the latest (highest-priority) directory
listing it as a `.yaml` file; and, when listed names contain no
separator (as `os.listdir` guarantees), returns a list strictly sorted
by base filename — one path per distinct base name. -/
theorem find_files_contract :
    (∀ fs, find_files fs [] = []) ∧
    (∀ fs pre post d, fs.isdir d = false →
      find_files fs (pre ++ d :: post) = find_files fs (pre ++ post)) ∧
    (∀ fs dirs name, alookup (dictOf (yamlCandidates fs dirs)) name
        = latestYamlPath fs dirs name) ∧
    (∀ fs dirs, (∀ d f, f ∈ fs.listdir d → ('/' : Char) ∉ f.data) →
      List.Sorted (· < ·) ((find_files fs dirs).map basename)) := by
  refine ⟨?_, ?_, alookup_dictOf_eq_latest, ?_⟩
  · intro fs
    rfl
  · intro fs pre post d h
    have hfilters : (pre ++ d :: post).filter fs.isdir = (pre ++ post).filter fs.isdir := by
      simp [List.filter_append, List.filter_cons, h]
    rw [find_files, find_files, yamlCandidates, yamlCandidates, hfilters]
  · intro fs dirs hs
    have hkeysnd : ((dictOf (yamlCandidates fs dirs)).map Prod.fst).Nodup :=
      keys_nodup_foldl (yamlCandidates fs dirs) [] (by simp)
    have hsortnd : (List.insertionSort (· ≤ ·)
        ((dictOf (yamlCandidates fs dirs)).map Prod.fst)).Nodup :=
      (List.perm_insertionSort _ _).nodup_iff.mpr hkeysnd
    have hsorted : List.Sorted (· ≤ ·) (List.insertionSort (· ≤ ·)
        ((dictOf (yamlCandidates fs dirs)).map Prod.fst)) :=
      List.sorted_insertionSort _ _
    have hmapid : ((find_files fs dirs).map basename) = List.insertionSort (· ≤ ·)
        ((dictOf (yamlCandidates fs dirs)).map Prod.fst) := by
      rw [find_files]
      apply filterMap_map_id
      intro name hname
      have hkeys : name ∈ (dictOf (yamlCandidates fs dirs)).map Prod.fst :=
        (List.mem_insertionSort (· ≤ ·)).mp hname
      have hsome := alookup_isSome_of_mem_keys _ name hkeys
      obtain ⟨path, hpath⟩ := Option.isSome_iff_exists.mp hsome
      refine ⟨path, hpath, ?_⟩
      have hpair : (name, path) ∈ dictOf (yamlCandidates fs dirs) :=
        alookup_mem _ _ _ hpath
      have hcand : (name, path) ∈ yamlCandidates fs dirs := by
        rcases mem_foldl_setKey (yamlCandidates fs dirs) [] _ hpair with hc | hc
        · simp at hc
        · exact hc
      rcases mem_yamlCandidates fs dirs _ hcand with ⟨dd, hdd, hld⟩
      rw [show path = pathJoin dd name from hdd]
      exact basename_pathJoin dd name (hs dd name hld)
    rw [hmapid]
    refine List.Pairwise.imp ?_ (List.Pairwise.and hsorted hsortnd)
    intro a b hab
    exact lt_of_le_of_ne hab.1 hab.2


/-- Witness for C8 on the sample filesystem. -/
theorem find_files_contract_witness :
    find_files sampleFS [] = [] ∧
      find_files sampleFS (["/lib"] ++ "/mnt" :: ["/etc"])
        = find_files sampleFS (["/lib"] ++ ["/etc"]) ∧
      alookup (dictOf (yamlCandidates sampleFS ["/lib", "/etc"])) "b.yaml"
        = latestYamlPath sampleFS ["/lib", "/etc"] "b.yaml" ∧
      List.Sorted (· < ·) ((find_files sampleFS ["/lib", "/etc"]).map basename) := by
  refine ⟨find_files_contract.1 sampleFS,
    find_files_contract.2.1 sampleFS ["/lib"] ["/etc"] "/mnt" (by decide),
    find_files_contract.2.2.1 sampleFS ["/lib", "/etc"] "b.yaml",
    find_files_contract.2.2.2 sampleFS ["/lib", "/etc"] ?_⟩
  intro d f hf
  simp only [sampleFS] at hf
  split at hf
  · simp at hf
    rcases hf with rfl | rfl | rfl <;> decide
  · split at hf
    · simp at hf
      subst hf
      decide
    · simp at hf

/-! ## Lemmas about the deep-merge engine -/

theorem combineDicts_nil (cur : List (String × Value)) : combineDicts cur [] = some cur := by
  simp [combineDicts]

theorem combineDicts_cons_absent (cur : List (String × Value)) (k : String) (v : Value)
    (rest : List (String × Value)) (h : alookup cur k = none) :
    combineDicts cur ((k, v) :: rest) = combineDicts (setKey cur k v) rest := by
  simp [combineDicts, h]

theorem combineDicts_cons_present (cur : List (String × Value)) (k : String) (v old w : Value)
    (rest : List (String × Value)) (h : alookup cur k = some old)
    (hw : combineVal old v = some w) :
    combineDicts cur ((k, v) :: rest) = combineDicts (setKey cur k w) rest := by
  simp [combineDicts, h, hw]

theorem combineDicts_cons_fail (cur : List (String × Value)) (k : String) (v old : Value)
    (rest : List (String × Value)) (h : alookup cur k = some old)
    (hw : combineVal old v = none) :
    combineDicts cur ((k, v) :: rest) = none := by
  simp [combineDicts, h, hw]

theorem combineDicts_alookup_of_absent (new : List (String × Value)) :
    ∀ cur r a, combineDicts cur new = some r → alookup new a = none →
      alookup r a = alookup cur a := by
  induction new with
  | nil =>
      intro cur r a h _
      rw [combineDicts_nil] at h
      injection h with h
      rw [h]
  | cons p rest ih =>
      intro cur r a h ha
      obtain ⟨k, v⟩ := p
      rw [alookup_cons] at ha
      by_cases hk : k = a
      · rw [if_pos hk] at ha
        exact absurd ha (by simp)
      · rw [if_neg hk] at ha
        have hka : a ≠ k := fun hh => hk hh.symm
        cases hcl : alookup cur k with
        | none =>
            rw [combineDicts_cons_absent cur k v rest hcl] at h
            rw [ih _ _ _ h ha, alookup_setKey_ne cur k a v hka]
        | some old =>
            cases hcv : combineVal old v with
            | none =>
                rw [combineDicts_cons_fail cur k v old rest hcl hcv] at h
                exact absurd h (by simp)
            | some w =>
                rw [combineDicts_cons_present cur k v old w rest hcl hcv] at h
                rw [ih _ _ _ h ha, alookup_setKey_ne cur k a w hka]

theorem combineDicts_alookup_of_present (new : List (String × Value)) :
    ∀ cur r a v, nodupKeys (new.map Prod.fst) = true →
      combineDicts cur new = some r → alookup new a = some v →
      (alookup cur a = none ∧ alookup r a = some v) ∨
        ∃ old w, alookup cur a = some old ∧ combineVal old v = some w ∧
          alookup r a = some w := by
  induction new with
  | nil =>
      intro cur r a v _ _ ha
      simp [alookup] at ha
  | cons p rest ih =>
      intro cur r a v hnd h ha
      obtain ⟨k, v'⟩ := p
      rw [List.map_cons] at hnd
      simp only [nodupKeys, Bool.and_eq_true, Bool.not_eq_eq_eq_not, Bool.not_true] at hnd
      obtain ⟨hkrest, hndrest⟩ := hnd
      have hkabs : alookup rest k = none := by
        rw [alookup_eq_none_iff]
        simpa using hkrest
      rw [alookup_cons] at ha
      by_cases hk : k = a
      · subst hk
        rw [if_pos rfl] at ha
        have hv : v' = v := by injection ha
        subst hv
        cases hcl : alookup cur k with
        | none =>
            rw [combineDicts_cons_absent cur k v' rest hcl] at h
            left
            refine ⟨rfl, ?_⟩
            rw [combineDicts_alookup_of_absent rest _ _ _ h hkabs]
            exact alookup_setKey_self cur k v'
        | some old =>
            cases hcv : combineVal old v' with
            | none =>
                rw [combineDicts_cons_fail cur k v' old rest hcl hcv] at h
                exact absurd h (by simp)
            | some w =>
                rw [combineDicts_cons_present cur k v' old w rest hcl hcv] at h
                right
                refine ⟨old, w, rfl, hcv, ?_⟩
                rw [combineDicts_alookup_of_absent rest _ _ _ h hkabs]
                exact alookup_setKey_self cur k w
      · rw [if_neg hk] at ha
        have hka : a ≠ k := fun hh => hk hh.symm
        cases hcl : alookup cur k with
        | none =>
            rw [combineDicts_cons_absent cur k v' rest hcl] at h
            have := ih _ _ _ _ hndrest h ha
            rwa [alookup_setKey_ne cur k a v' hka] at this
        | some old =>
            cases hcv : combineVal old v' with
            | none =>
                rw [combineDicts_cons_fail cur k v' old rest hcl hcv] at h
                exact absurd h (by simp)
            | some w =>
                rw [combineDicts_cons_present cur k v' old w rest hcl hcv] at h
                have := ih _ _ _ _ hndrest h ha
                rwa [alookup_setKey_ne cur k a w hka] at this

theorem combineDicts_keys_subset (new : List (String × Value)) :
    ∀ cur r a, combineDicts cur new = some r → a ∈ r.map Prod.fst →
      a ∈ cur.map Prod.fst ∨ a ∈ new.map Prod.fst := by
  induction new with
  | nil =>
      intro cur r a h ha
      rw [combineDicts_nil] at h
      injection h with h
      subst h
      exact Or.inl ha
  | cons p rest ih =>
      intro cur r a h ha
      obtain ⟨k, v⟩ := p
      have step : ∀ w, combineDicts (setKey cur k w) rest = some r →
          a ∈ cur.map Prod.fst ∨ a ∈ ((k, v) :: rest).map Prod.fst := by
        intro w hw
        rcases ih _ _ _ hw ha with hc | hc
        · rcases List.mem_map.mp hc with ⟨q, hq, hqa⟩
          rcases mem_setKey cur k w q hq with hq' | hq'
          · exact Or.inl (List.mem_map.mpr ⟨q, hq', hqa⟩)
          · subst hq'
            right
            rw [List.map_cons]
            simp [← hqa]
        · right
          rw [List.map_cons]
          exact List.mem_cons_of_mem _ hc
      cases hcl : alookup cur k with
      | none =>
          rw [combineDicts_cons_absent cur k v rest hcl] at h
          exact step v h
      | some old =>
          cases hcv : combineVal old v with
          | none =>
              rw [combineDicts_cons_fail cur k v old rest hcl hcv] at h
              exact absurd h (by simp)
          | some w =>
              rw [combineDicts_cons_present cur k v old w rest hcl hcv] at h
              exact step w h

theorem specMergeDicts_nil (cur : List (String × Value)) : specMergeDicts cur [] = cur := by
  simp [specMergeDicts]

theorem specMergeDicts_cons_absent (cur : List (String × Value)) (k : String) (v : Value)
    (rest : List (String × Value)) (h : alookup cur k = none) :
    specMergeDicts cur ((k, v) :: rest) = specMergeDicts (setKey cur k v) rest := by
  simp [specMergeDicts, h]

theorem specMergeDicts_cons_present (cur : List (String × Value)) (k : String) (v old : Value)
    (rest : List (String × Value)) (h : alookup cur k = some old) :
    specMergeDicts cur ((k, v) :: rest)
      = specMergeDicts (setKey cur k (specMergeVal old v)) rest := by
  simp [specMergeDicts, h]

theorem valKeysOk_cons_iff (k : String) (v : Value) (rest : List (String × Value)) :
    valKeysOk (.vMap ((k, v) :: rest)) = true ↔
      k ∉ rest.map Prod.fst ∧ valKeysOk v = true ∧ valKeysOk (.vMap rest) = true := by
  simp only [valKeysOk, mapKeysOk, List.map_cons, nodupKeys, Bool.and_eq_true,
    Bool.not_eq_eq_eq_not, Bool.not_true]
  constructor
  · rintro ⟨⟨h1, h2⟩, h3, h4⟩
    exact ⟨by simpa using h1, h3, h2, h4⟩
  · rintro ⟨h1, h3, h2, h4⟩
    exact ⟨⟨by simpa using h1, h2⟩, h3, h4⟩

theorem compatDicts_congr (rest : List (String × Value)) :
    ∀ c1 c2, (∀ k, k ∈ rest.map Prod.fst → alookup c1 k = alookup c2 k) →
      compatDicts c1 rest = compatDicts c2 rest := by
  induction rest with
  | nil => intro c1 c2 _; simp [compatDicts]
  | cons p t ih =>
      intro c1 c2 hk
      obtain ⟨k, v⟩ := p
      have h1 : alookup c1 k = alookup c2 k := hk k (by simp)
      have h2 := ih c1 c2 (fun k' hk' => hk k' (by simp [hk']))
      simp [compatDicts, h1, h2]

theorem compatDicts_setKey (rest : List (String × Value)) (cur : List (String × Value))
    (k : String) (w : Value) (hk : k ∉ rest.map Prod.fst) :
    compatDicts (setKey cur k w) rest = compatDicts cur rest := by
  apply compatDicts_congr
  intro k' hk'
  exact alookup_setKey_ne cur k k' w (fun hh => hk (hh ▸ hk'))

/-- C1 counterexample: merging `{"k": 5}` (accumulator) with `{"k": {}}`
keeps the existing scalar `5` — the code recurses because the NEW value
is a dict — whereas the claim's rules, keyed on the EXISTING value's
type, replace it outright with the new value `{}`. -/
theorem combine_dispatch_cex :
    combineDicts [("k", .vInt 5)] [("k", .vMap [])] = some [("k", .vInt 5)] ∧
      specMergeDicts [("k", .vInt 5)] [("k", .vMap [])] = [("k", .vMap [])] := by
  constructor
  · simp [combineDicts, alookup, combineVal, setKey]
  · simp [specMergeDicts, alookup, specMergeVal, setKey]

/-- C1 (amended): for documents whose mappings have duplicate-free keys
(as every decoded Python dict has) and which are kind-compatible at every
shared key — both values sequences, both mappings (recursively), or both
of scalar-like type — the merge applies the claim's rules key by key:
absent keys are copied in, shared sequences are concatenated, shared
mappings are merged recursively, and any other shared key is replaced
outright by the new value.  (On kind-mismatched pairs the code instead
dispatches on the new value's type, see the counterexample.) -/
theorem combine_deep_merge_rules (cur new : List (String × Value))
    (hk : valKeysOk (.vMap new) = true) (hc : compatDicts cur new = true) :
    combineDicts cur new = some (specMergeDicts cur new) := by
  revert hk hc
  refine combineDicts.induct
    (fun old v => valKeysOk v = true → compat old v = true →
      combineVal old v = some (specMergeVal old v))
    (fun cur new => valKeysOk (.vMap new) = true → compatDicts cur new = true →
      combineDicts cur new = some (specMergeDicts cur new))
    ?_ ?_ ?_ ?_ ?_ ?_ ?_ ?_ ?_ ?_ cur new
  · intro nl ol _ _
    simp [combineVal, specMergeVal]
  · intro old nl hns _ hcp
    cases old <;> simp_all [compat, isScalar]
  · intro nm om ih hvk hcp
    rw [compat] at hcp
    have := ih hvk hcp
    simp [combineVal, specMergeVal, this]
  · intro old nm hemp hnm hvk hcp
    cases old <;> simp_all [compat, isScalar]
  · intro old nm hemp hnm hvk hcp
    cases old <;> simp_all [compat, isScalar]
  · intro x v hns hnm _ hcp
    cases v <;> cases x <;> simp_all [combineVal, specMergeVal, compat, isScalar]
  · intro cur _ _
    simp [combineDicts_nil, specMergeDicts_nil]
  · intro cur k v rest hcl ih hvk hcp
    rcases (valKeysOk_cons_iff k v rest).mp hvk with ⟨hknr, hvv, hvrest⟩
    simp only [compatDicts, hcl, Bool.true_and] at hcp
    rw [combineDicts_cons_absent cur k v rest hcl,
      specMergeDicts_cons_absent cur k v rest hcl]
    exact ih hvrest ((compatDicts_setKey rest cur k v hknr).symm ▸ hcp)
  · intro cur k v rest old hcl w hcv ihv ih hvk hcp
    rcases (valKeysOk_cons_iff k v rest).mp hvk with ⟨hknr, hvv, hvrest⟩
    simp only [compatDicts, hcl, Bool.and_eq_true] at hcp
    obtain ⟨hcpv, hcprest⟩ := hcp
    have hw : w = specMergeVal old v := by
      have := ihv hvv hcpv
      rw [hcv] at this
      injection this
    rw [combineDicts_cons_present cur k v old w rest hcl hcv,
      specMergeDicts_cons_present cur k v old rest hcl, ← hw]
    exact ih hvrest ((compatDicts_setKey rest cur k w hknr).symm ▸ hcprest)
  · intro cur k v rest old hcl hcv ihv hvk hcp
    rcases (valKeysOk_cons_iff k v rest).mp hvk with ⟨hknr, hvv, hvrest⟩
    simp only [compatDicts, hcl, Bool.and_eq_true] at hcp
    have := ihv hvv hcp.1
    rw [hcv] at this
    exact absurd this (by simp)

/-! ## Lemmas about the loader -/

theorem insertionSort_isEmpty {α : Type} (r : α → α → Prop) [DecidableRel r] (l : List α)
    (h : (List.insertionSort r l).isEmpty = true) : l = [] := by
  have hp := List.perm_insertionSort r l
  cases hs : List.insertionSort r l with
  | nil =>
      rw [hs] at hp
      exact hp.symm.eq_nil
  | cons x xs => rw [hs] at h; simp at h

theorem parse_file_keys (doc : Option Value) (net : List (String × Value))
    (h : parse_file doc = .ok net) : ∀ k ∈ net.map Prod.fst, k ∈ sectionNames := by
  intro k hk
  cases doc with
  | none => simp [parse_file] at h
  | some c =>
      cases c with
      | vMap m =>
          cases hnw : alookup m "network" with
          | none => simp [parse_file, hnw] at h
          | some nv =>
              cases nv with
              | vMap net0 =>
                  cases hv : alookup net0 "version" with
                  | none => simp [parse_file, hnw, hv] at h
                  | some vv =>
                      cases vv with
                      | vInt n =>
                          by_cases hn : n = 2
                          · subst hn
                            simp only [parse_file, hnw, hv, if_pos rfl, reduceIte] at h
                            split at h
                            · rename_i hemp
                              injection h with h
                              subst h
                              have hnil := insertionSort_isEmpty _ _ hemp
                              have hmem : k ∈ ((delKey net0 "version").map Prod.fst).dedup :=
                                List.mem_dedup.mpr hk
                              by_cases hks : k ∈ sectionNames
                              · exact hks
                              · have hcontra :
                                    k ∈ ((delKey net0 "version").map Prod.fst).dedup.filter
                                      (fun k => !sectionNames.contains k) :=
                                  List.mem_filter.mpr ⟨hmem, by simpa using hks⟩
                                rw [hnil] at hcontra
                                simp at hcontra
                            · exact absurd h (by simp)
                          · simp [parse_file, hnw, hv, hn] at h
                      | vStr sv => simp [parse_file, hnw, hv] at h
                      | vBool b => simp [parse_file, hnw, hv] at h
                      | vNull => simp [parse_file, hnw, hv] at h
                      | vSeq l => simp [parse_file, hnw, hv] at h
                      | vMap mm => simp [parse_file, hnw, hv] at h
              | vInt i => simp [parse_file, hnw] at h
              | vStr sv => simp [parse_file, hnw] at h
              | vBool b => simp [parse_file, hnw] at h
              | vNull => simp [parse_file, hnw] at h
              | vSeq l => simp [parse_file, hnw] at h
      | vInt i => simp [parse_file] at h
      | vStr sv => simp [parse_file] at h
      | vBool b => simp [parse_file] at h
      | vNull => simp [parse_file] at h
      | vSeq l => simp [parse_file] at h

theorem combineFrom_nil (decode : String → Option Value) (raw : List (String × Value)) :
    combineFrom decode raw [] = .ok raw := rfl

theorem combineFrom_cons_err (decode : String → Option Value) (raw : List (String × Value))
    (f : String) (rest : List String) (e : PErr) (h : parse_file (decode f) = .error e) :
    combineFrom decode raw (f :: rest) = .error (f, e) := by
  simp [combineFrom, h]

theorem combineFrom_cons_mergefail (decode : String → Option Value)
    (raw net : List (String × Value)) (f : String) (rest : List String)
    (hp : parse_file (decode f) = .ok net) (hm : combineDicts raw net = none) :
    combineFrom decode raw (f :: rest) = .error (f, .mergeError) := by
  simp [combineFrom, hp, hm]

theorem combineFrom_cons_ok (decode : String → Option Value)
    (raw net raw1 : List (String × Value)) (f : String) (rest : List String)
    (hp : parse_file (decode f) = .ok net) (hm : combineDicts raw net = some raw1) :
    combineFrom decode raw (f :: rest) = combineFrom decode raw1 rest := by
  simp [combineFrom, hp, hm]

theorem combineFrom_append (pre post : List String) :
    ∀ (decode : String → Option Value) raw,
      combineFrom decode raw (pre ++ post)
        = match combineFrom decode raw pre with
          | .ok raw1 => combineFrom decode raw1 post
          | .error e => .error e := by
  induction pre with
  | nil =>
      intro decode raw
      rw [List.nil_append, combineFrom_nil]
  | cons f rest ih =>
      intro decode raw
      rw [List.cons_append]
      cases hp : parse_file (decode f) with
      | error e =>
          rw [combineFrom_cons_err decode raw f _ e hp, combineFrom_cons_err decode raw f rest e hp]
      | ok net =>
          cases hm : combineDicts raw net with
          | none =>
              rw [combineFrom_cons_mergefail decode raw net f _ hp hm,
                combineFrom_cons_mergefail decode raw net f rest hp hm]
          | some raw1 =>
              rw [combineFrom_cons_ok decode raw net raw1 f _ hp hm,
                combineFrom_cons_ok decode raw net raw1 f rest hp hm]
              exact ih decode raw1

theorem combineFrom_keys (files : List String) :
    ∀ (decode : String → Option Value) raw raw',
      (∀ k ∈ raw.map Prod.fst, k ∈ sectionNames) →
      combineFrom decode raw files = .ok raw' →
      ∀ k ∈ raw'.map Prod.fst, k ∈ sectionNames := by
  induction files with
  | nil =>
      intro decode raw raw' hinv h
      rw [combineFrom_nil] at h
      injection h with h
      subst h
      exact hinv
  | cons f rest ih =>
      intro decode raw raw' hinv h
      cases hp : parse_file (decode f) with
      | error e =>
          rw [combineFrom_cons_err decode raw f rest e hp] at h
          exact absurd h (by simp)
      | ok net =>
          cases hm : combineDicts raw net with
          | none =>
              rw [combineFrom_cons_mergefail decode raw net f rest hp hm] at h
              exact absurd h (by simp)
          | some raw1 =>
              rw [combineFrom_cons_ok decode raw net raw1 f rest hp hm] at h
              refine ih decode raw1 raw' ?_ h
              intro k hk
              rcases combineDicts_keys_subset net raw raw1 k hm hk with hc | hc
              · exact hinv k hc
              · exact parse_file_keys (decode f) net hp k hc

/-- Every file of a successful load parsed successfully: the converse
direction of fail-fast. -/
theorem combineFrom_ok_all_parsed (files : List String) :
    ∀ (decode : String → Option Value) raw raw',
      combineFrom decode raw files = .ok raw' →
      ∀ f ∈ files, ∃ net, parse_file (decode f) = .ok net := by
  induction files with
  | nil =>
      intro decode raw raw' _ f hf
      simp at hf
  | cons g rest ih =>
      intro decode raw raw' h f hf
      cases hp : parse_file (decode g) with
      | error e =>
          rw [combineFrom_cons_err decode raw g rest e hp] at h
          exact absurd h (by simp)
      | ok net =>
          cases hm : combineDicts raw net with
          | none =>
              rw [combineFrom_cons_mergefail decode raw net g rest hp hm] at h
              exact absurd h (by simp)
          | some raw1 =>
              rw [combineFrom_cons_ok decode raw net raw1 g rest hp hm] at h
              rcases List.mem_cons.mp hf with hfg | hfr
              · subst hfg
                exact ⟨net, hp⟩
              · exact ih decode raw1 raw' h f hfr

/-- C10: if every file passes per-file validation (the load returns a
merged raw document), every top-level key of the merged document is a
recognized section name, so the `BY_SECTION` lookup in the dispatch loop
succeeds for every section. -/
theorem section_lookup_total (decode : String → Option Value) (files : List String)
    (raw : List (String × Value)) (h : combine_files decode files = .ok raw) :
    ∀ s ∈ raw.map Prod.fst, s ∈ sectionNames ∧ (alookup BY_SECTION s).isSome := by
  intro s hs
  have hsec : s ∈ sectionNames :=
    combineFrom_keys files decode [] raw (by simp) h s hs
  exact ⟨hsec, alookup_isSome_of_mem_keys BY_SECTION s hsec⟩

/-- Witness for C10: a one-file load declaring an `ethernets` section. -/
theorem section_lookup_total_witness :
    "ethernets" ∈ sectionNames ∧ (alookup BY_SECTION "ethernets").isSome :=
  section_lookup_total
    (fun _ => some (.vMap [("network",
      .vMap [("version", .vInt 2), ("ethernets", .vMap [("eth0", .vMap [])])])]))
    ["a.yaml"]
    [("ethernets", .vMap [("eth0", .vMap [])])]
    (by simp [combine_files, combineFrom, parse_file, alookup, delKey, sectionNames,
      BY_SECTION, combineDicts, setKey, List.insertionSort, List.orderedInsert])
    "ethernets" (by simp)

theorem combine_files_append_err (decode : String → Option Value) (pre : List String)
    (f : String) (post : List String) (raw : List (String × Value)) (e : PErr)
    (hpre : combine_files decode pre = .ok raw) (hf : parse_file (decode f) = .error e) :
    combine_files decode (pre ++ f :: post) = .error (f, e) := by
  replace hpre : combineFrom decode [] pre = .ok raw := hpre
  show combineFrom decode [] (pre ++ f :: post) = .error (f, e)
  rw [combineFrom_append pre (f :: post) decode [], hpre]
  exact combineFrom_cons_err decode raw f post e hf

theorem parse_file_notADict (c : Value) (hnm : ∀ m, c ≠ .vMap m) :
    parse_file (some c) = .error .notADict := by
  cases c with
  | vMap m => exact absurd rfl (hnm m)
  | vInt i => rfl
  | vStr s => rfl
  | vBool b => rfl
  | vNull => rfl
  | vSeq l => rfl

theorem parse_file_noNetwork (m : List (String × Value))
    (h : alookup m "network" = none ∨ alookup m "network" = some .vNull) :
    parse_file (some (.vMap m)) = .error .noNetwork := by
  rcases h with h | h <;> simp [parse_file, h]

theorem parse_file_networkNotDict (m : List (String × Value)) (v : Value)
    (h : alookup m "network" = some v) (hnull : v ≠ .vNull) (hnm : ∀ nm, v ≠ .vMap nm) :
    parse_file (some (.vMap m)) = .error .networkNotDict := by
  cases v with
  | vMap nm => exact absurd rfl (hnm nm)
  | vNull => exact absurd rfl hnull
  | vInt i => simp [parse_file, h]
  | vStr s => simp [parse_file, h]
  | vBool b => simp [parse_file, h]
  | vSeq l => simp [parse_file, h]

theorem parse_file_noVersion (m net : List (String × Value))
    (hnw : alookup m "network" = some (.vMap net))
    (hv : alookup net "version" = none ∨ alookup net "version" = some .vNull) :
    parse_file (some (.vMap m)) = .error .noVersion := by
  rcases hv with hv | hv <;> simp [parse_file, hnw, hv]

theorem parse_file_badVersion (m net : List (String × Value)) (v : Value)
    (hnw : alookup m "network" = some (.vMap net))
    (hv : alookup net "version" = some v) (hnull : v ≠ .vNull) (hne : v ≠ .vInt 2) :
    parse_file (some (.vMap m)) = .error (.badVersion v) := by
  cases v with
  | vNull => exact absurd rfl hnull
  | vInt n =>
      have hn : ¬n = 2 := fun hh => hne (by rw [hh])
      simp [parse_file, hnw, hv, hn]
  | vStr s => simp [parse_file, hnw, hv]
  | vBool b => simp [parse_file, hnw, hv]
  | vSeq l => simp [parse_file, hnw, hv]
  | vMap mm => simp [parse_file, hnw, hv]

/-- Membership in the `missing` list computed by `parse_file`:
exactly the top-level keys (after removing the version marker) that are
not recognized section names. -/
theorem mem_missing_iff (net' : List (String × Value)) (k : String) :
    k ∈ List.insertionSort (· ≤ ·)
        ((net'.map Prod.fst).dedup.filter (fun k => !sectionNames.contains k)) ↔
      k ∈ net'.map Prod.fst ∧ k ∉ sectionNames := by
  rw [List.mem_insertionSort, List.mem_filter, List.mem_dedup]
  simp

theorem parse_file_badSections (m net : List (String × Value)) (k0 : String)
    (hnw : alookup m "network" = some (.vMap net))
    (hv : alookup net "version" = some (.vInt 2))
    (hmem : k0 ∈ (delKey net "version").map Prod.fst) (hks : k0 ∉ sectionNames) :
    parse_file (some (.vMap m))
      = .error (.badSections (List.insertionSort (· ≤ ·)
          (((delKey net "version").map Prod.fst).dedup.filter
            (fun k => !sectionNames.contains k)))) := by
  have hmem0 : k0 ∈ List.insertionSort (· ≤ ·)
      (((delKey net "version").map Prod.fst).dedup.filter
        (fun k => !sectionNames.contains k)) :=
    (mem_missing_iff (delKey net "version") k0).mpr ⟨hmem, hks⟩
  have hnotemp : (List.insertionSort (· ≤ ·)
      (((delKey net "version").map Prod.fst).dedup.filter
        (fun k => !sectionNames.contains k))).isEmpty = false := by
    cases hs : List.insertionSort (· ≤ ·)
        (((delKey net "version").map Prod.fst).dedup.filter
          (fun k => !sectionNames.contains k)) with
    | nil => rw [hs] at hmem0; simp at hmem0
    | cons x xs => rfl
  have hcond : ¬((List.insertionSort (· ≤ ·)
      (((delKey net "version").map Prod.fst).dedup.filter
        (fun k => !sectionNames.contains k))).isEmpty = true) := by
    rw [hnotemp]
    exact Bool.false_ne_true
  simp only [parse_file, hnw, hv, reduceIte]
  rw [if_neg hcond]

/-- C4: a file whose `network` mapping lacks a `version` (absent or
null) fails the load with the no-version error naming that file; a file
whose version value is anything other than the integer 2 fails with the
distinct unsupported-version error naming that file; the two errors
differ.  The earlier files are assumed to load cleanly (otherwise the
load already failed at one of them). -/
theorem version_shape_errors :
    (∀ (decode : String → Option Value) pre f post raw m net,
      combine_files decode pre = .ok raw →
      decode f = some (.vMap m) →
      alookup m "network" = some (.vMap net) →
      (alookup net "version" = none ∨ alookup net "version" = some .vNull) →
      combine_files decode (pre ++ f :: post) = .error (f, .noVersion)) ∧
    (∀ (decode : String → Option Value) pre f post raw m net v,
      combine_files decode pre = .ok raw →
      decode f = some (.vMap m) →
      alookup m "network" = some (.vMap net) →
      alookup net "version" = some v → v ≠ .vNull → v ≠ .vInt 2 →
      combine_files decode (pre ++ f :: post) = .error (f, .badVersion v)) ∧
    (∀ v, PErr.noVersion ≠ PErr.badVersion v) := by
  refine ⟨?_, ?_, ?_⟩
  · intro decode pre f post raw m net hpre hdf hnw hv
    apply combine_files_append_err decode pre f post raw _ hpre
    rw [hdf]
    exact parse_file_noVersion m net hnw hv
  · intro decode pre f post raw m net v hpre hdf hnw hv hnull hne
    apply combine_files_append_err decode pre f post raw _ hpre
    rw [hdf]
    exact parse_file_badVersion m net v hnw hv hnull hne
  · intro v h
    exact PErr.noConfusion h

/-- Witness for C4: a file with no version and a file with version 1. -/
theorem version_shape_errors_witness :
    combine_files (fun _ => some (.vMap [("network", .vMap [])])) ["nover.yaml"]
        = .error ("nover.yaml", .noVersion) ∧
      combine_files (fun _ => some (.vMap [("network", .vMap [("version", .vInt 1)])]))
          ["v1.yaml"]
        = .error ("v1.yaml", .badVersion (.vInt 1)) ∧
      PErr.noVersion ≠ PErr.badVersion (.vInt 1) := by
  refine ⟨?_, ?_, version_shape_errors.2.2 (.vInt 1)⟩
  · exact version_shape_errors.1 _ [] "nover.yaml" [] [] _ _ rfl rfl rfl (Or.inl rfl)
  · exact version_shape_errors.2.1 _ [] "v1.yaml" [] [] _ _ (.vInt 1) rfl rfl rfl rfl
      (by intro h; cases h) (by intro h; injection h with h; cases h)

/-- C5: a file that, after removal of the version marker, declares a
top-level section not among the five recognized names fails the load
with an error naming the file and carrying exactly the unrecognized
section names found.  The earlier files are assumed to load cleanly. -/
theorem unknown_section_error (decode : String → Option Value) (pre : List String)
    (f : String) (post : List String) (raw m net : List (String × Value)) (k0 : String)
    (hpre : combine_files decode pre = .ok raw)
    (hdf : decode f = some (.vMap m))
    (hnw : alookup m "network" = some (.vMap net))
    (hv : alookup net "version" = some (.vInt 2))
    (hmem : k0 ∈ (delKey net "version").map Prod.fst)
    (hks : k0 ∉ sectionNames) :
    ∃ ms, combine_files decode (pre ++ f :: post) = .error (f, .badSections ms) ∧
      k0 ∈ ms ∧
      (∀ k ∈ ms, k ∈ (delKey net "version").map Prod.fst ∧ k ∉ sectionNames) ∧
      (∀ k ∈ (delKey net "version").map Prod.fst, k ∉ sectionNames → k ∈ ms) := by
  refine ⟨List.insertionSort (· ≤ ·)
    (((delKey net "version").map Prod.fst).dedup.filter
      (fun k => !sectionNames.contains k)), ?_, ?_, ?_, ?_⟩
  · apply combine_files_append_err decode pre f post raw _ hpre
    rw [hdf]
    exact parse_file_badSections m net k0 hnw hv hmem hks
  · exact (mem_missing_iff (delKey net "version") k0).mpr ⟨hmem, hks⟩
  · intro k hkm
    exact (mem_missing_iff (delKey net "version") k).mp hkm
  · intro k hkm hkns
    exact (mem_missing_iff (delKey net "version") k).mpr ⟨hkm, hkns⟩

/-- Witness for C5: a file declaring a `tunnels` section. -/
theorem unknown_section_error_witness :
    ∃ ms, combine_files
        (fun _ => some (.vMap [("network",
          .vMap [("version", .vInt 2), ("tunnels", .vMap [])])]))
        ([] ++ "tun.yaml" :: [])
      = .error ("tun.yaml", .badSections ms) ∧
      "tunnels" ∈ ms ∧
      (∀ k ∈ ms, k ∈ (delKey [("version", .vInt 2), ("tunnels", .vMap [])] "version").map
          Prod.fst ∧ k ∉ sectionNames) ∧
      (∀ k ∈ (delKey [("version", .vInt 2), ("tunnels", .vMap [])] "version").map Prod.fst,
        k ∉ sectionNames → k ∈ ms) :=
  unknown_section_error _ [] "tun.yaml" [] [] _ _ "tunnels" rfl rfl rfl rfl
    (by simp [delKey]) (by simp [sectionNames, BY_SECTION])

/-- C6: any per-file failure aborts the whole load naming the offending
file — in particular a decode failure — and a load that returns a
configuration parsed every file successfully, so no partial result is
ever produced from a failing file list. -/
theorem per_file_error_aborts_load :
    (∀ (decode : String → Option Value) pre f post raw,
      combine_files decode pre = .ok raw →
      decode f = none →
      combine_files decode (pre ++ f :: post) = .error (f, .decodeError)) ∧
    (∀ (decode : String → Option Value) files raw,
      combine_files decode files = .ok raw →
      ∀ f ∈ files, ∃ net, parse_file (decode f) = .ok net) := by
  constructor
  · intro decode pre f post raw hpre hdf
    apply combine_files_append_err decode pre f post raw _ hpre
    rw [hdf]
    rfl
  · intro decode files raw h f hf
    exact combineFrom_ok_all_parsed files decode [] raw h f hf

/-- Witness for C6: an undecodable file aborts the load; a successful
two-file load parsed both files. -/
theorem per_file_error_aborts_load_witness :
    combine_files (fun _ => none) ["bad.yaml"] = .error ("bad.yaml", .decodeError) ∧
      ∃ net, parse_file (some (.vMap [("network", .vMap [("version", .vInt 2)])]))
        = .ok net := by
  constructor
  · exact per_file_error_aborts_load.1 (fun _ => none) [] "bad.yaml" [] [] rfl rfl
  · exact per_file_error_aborts_load.2
      (fun _ => some (.vMap [("network", .vMap [("version", .vInt 2)])])) ["ok.yaml"] []
      (by simp [combine_files, combineFrom, parse_file, alookup, delKey, combineDicts])
      "ok.yaml" (by simp)

/-- C7 counterexample: a file with TWO top-level keys (`network` plus an
extra one) is accepted by the load — the claimed single-top-level-key
validation does not exist; the extra key is silently ignored. -/
theorem single_key_not_validated_cex :
    combine_files
        (fun _ => some (.vMap [("network", .vMap [("version", .vInt 2)]),
          ("extra", .vInt 1)]))
        ["two.yaml"]
      = .ok [] := by
  simp [combine_files, combineFrom, parse_file, alookup, delKey, combineDicts]

/-- C7 (amended): before merging, a file whose parsed document is not a
mapping, or has no `network` key (or a null one), or whose `network`
value is not itself a mapping, is rejected with an error naming that
file; extra top-level keys besides `network` are ignored rather than
rejected.  The earlier files are assumed to load cleanly. -/
theorem file_shape_validation :
    (∀ (decode : String → Option Value) pre f post raw doc,
      combine_files decode pre = .ok raw →
      decode f = some doc → (∀ m, doc ≠ .vMap m) →
      combine_files decode (pre ++ f :: post) = .error (f, .notADict)) ∧
    (∀ (decode : String → Option Value) pre f post raw m,
      combine_files decode pre = .ok raw →
      decode f = some (.vMap m) →
      (alookup m "network" = none ∨ alookup m "network" = some .vNull) →
      combine_files decode (pre ++ f :: post) = .error (f, .noNetwork)) ∧
    (∀ (decode : String → Option Value) pre f post raw m v,
      combine_files decode pre = .ok raw →
      decode f = some (.vMap m) →
      alookup m "network" = some v → v ≠ .vNull → (∀ nm, v ≠ .vMap nm) →
      combine_files decode (pre ++ f :: post) = .error (f, .networkNotDict)) := by
  refine ⟨?_, ?_, ?_⟩
  · intro decode pre f post raw doc hpre hdf hnm
    apply combine_files_append_err decode pre f post raw _ hpre
    rw [hdf]
    exact parse_file_notADict doc hnm
  · intro decode pre f post raw m hpre hdf hnw
    apply combine_files_append_err decode pre f post raw _ hpre
    rw [hdf]
    exact parse_file_noNetwork m hnw
  · intro decode pre f post raw m v hpre hdf hnw hnull hnm
    apply combine_files_append_err decode pre f post raw _ hpre
    rw [hdf]
    exact parse_file_networkNotDict m v hnw hnull hnm

/-- Witness for C7 (amended): a scalar document, a document without
`network`, and a document whose `network` is a scalar. -/
theorem file_shape_validation_witness :
    combine_files (fun _ => some (.vStr "oops")) ["s.yaml"]
        = .error ("s.yaml", .notADict) ∧
      combine_files (fun _ => some (.vMap [("other", .vInt 3)])) ["n.yaml"]
        = .error ("n.yaml", .noNetwork) ∧
      combine_files (fun _ => some (.vMap [("network", .vInt 42)])) ["d.yaml"]
        = .error ("d.yaml", .networkNotDict) := by
  refine ⟨?_, ?_, ?_⟩
  · exact file_shape_validation.1 _ [] "s.yaml" [] [] _ rfl rfl
      (fun m h => by cases h)
  · exact file_shape_validation.2.1 _ [] "n.yaml" [] [] _ rfl rfl (Or.inl rfl)
  · exact file_shape_validation.2.2 _ [] "d.yaml" [] [] _ _ rfl rfl rfl
      (by intro h; cases h) (fun nm h => by cases h)


theorem lookupPathV_nil (v : Value) : lookupPathV v [] = some v := by
  simp [lookupPathV]

theorem lookupPathV_cons_map (m : List (String × Value)) (k : String) (rest : List String) :
    lookupPathV (.vMap m) (k :: rest)
      = match alookup m k with
        | none => none
        | some w => lookupPathV w rest := by
  simp [lookupPathV]

theorem lookupPathV_append (q s : List String) :
    ∀ v, lookupPathV v (q ++ s)
      = match lookupPathV v q with
        | none => none
        | some w => lookupPathV w s := by
  induction q with
  | nil =>
      intro v
      simp [lookupPathV_nil]
  | cons a q' ih =>
      intro v
      cases v with
      | vMap m =>
          rw [List.cons_append, lookupPathV_cons_map, lookupPathV_cons_map]
          cases alookup m a with
          | none => rfl
          | some w => exact ih w
      | vInt i => simp [lookupPathV]
      | vStr s' => simp [lookupPathV]
      | vBool b => simp [lookupPathV]
      | vNull => simp [lookupPathV]
      | vSeq l => simp [lookupPathV]

theorem lookupPathV_cons_found (m : List (String × Value)) (k : String) (rest : List String)
    (w : Value) (h : alookup m k = some w) :
    lookupPathV (.vMap m) (k :: rest) = lookupPathV w rest := by
  rw [lookupPathV_cons_map, h]

theorem lookupPathV_cons_missing (m : List (String × Value)) (k : String) (rest : List String)
    (h : alookup m k = none) : lookupPathV (.vMap m) (k :: rest) = none := by
  rw [lookupPathV_cons_map, h]

theorem lookupPathV_past_missing (v : Value) (q : List String) (m : List (String × Value))
    (k : String) (tail : List String) (hq : lookupPathV v q = some (.vMap m))
    (hk : alookup m k = none) : lookupPathV v (q ++ k :: tail) = none := by
  rw [lookupPathV_append, hq]
  exact lookupPathV_cons_missing m k tail hk

theorem valKeysOk_map_parts (m : List (String × Value)) (h : valKeysOk (.vMap m) = true) :
    nodupKeys (m.map Prod.fst) = true ∧ mapKeysOk m = true := by
  rw [valKeysOk] at h
  exact Bool.and_eq_true_iff.mp h

theorem mapKeysOk_mem (m : List (String × Value)) (a : String) (v : Value)
    (hm : mapKeysOk m = true) (hmem : (a, v) ∈ m) : valKeysOk v = true := by
  induction m with
  | nil => simp at hmem
  | cons p t ih =>
      obtain ⟨k', v'⟩ := p
      rw [mapKeysOk, Bool.and_eq_true_iff] at hm
      rcases List.mem_cons.mp hmem with h | h
      · injection h with h1 h2
        rw [h2]
        exact hm.1
      · exact ih hm.2 h

theorem valKeysOk_alookup (m : List (String × Value)) (a : String) (v : Value)
    (h : valKeysOk (.vMap m) = true) (ha : alookup m a = some v) : valKeysOk v = true :=
  mapKeysOk_mem m a v (valKeysOk_map_parts m h).2 (alookup_mem m a v ha)

theorem combineVal_map_cases (old : Value) (na : List (String × Value)) (w : Value)
    (h : combineVal old (.vMap na) = some w) :
    (∃ om ra, old = .vMap om ∧ combineDicts om na = some ra ∧ w = .vMap ra) ∨
      (na = [] ∧ w = old) := by
  cases old with
  | vMap om =>
      simp only [combineVal] at h
      cases hre : combineDicts om na with
      | none => rw [hre] at h; exact absurd h (by simp)
      | some ra =>
          rw [hre] at h
          simp at h
          exact Or.inl ⟨om, ra, rfl, hre, h.symm⟩
  | vInt i =>
      simp [combineVal] at h
      cases na with
      | nil => exact Or.inr ⟨rfl, by simpa using h.2.symm⟩
      | cons x xs => simp at h
  | vStr sv =>
      simp [combineVal] at h
      cases na with
      | nil => exact Or.inr ⟨rfl, by simpa using h.2.symm⟩
      | cons x xs => simp at h
  | vBool b =>
      simp [combineVal] at h
      cases na with
      | nil => exact Or.inr ⟨rfl, by simpa using h.2.symm⟩
      | cons x xs => simp at h
  | vNull =>
      simp [combineVal] at h
      cases na with
      | nil => exact Or.inr ⟨rfl, by simpa using h.2.symm⟩
      | cons x xs => simp at h
  | vSeq l =>
      simp [combineVal] at h
      cases na with
      | nil => exact Or.inr ⟨rfl, by simpa using h.2.symm⟩
      | cons x xs => simp at h

/-- C9: a key present in the accumulator `cur` but absent from the new
document `new`, at any nesting level the merge reaches (a path `q` of
mappings of `new` whose final mapping lacks the key `k`), keeps exactly
its value from `cur`: below `q ++ [k]` the merge result agrees with
`cur`.  The mappings of `new` are assumed duplicate-key-free, as every
decoded Python dict is. -/
theorem merge_frame_property (q : List String) :
    ∀ cur new r m k tail, combineDicts cur new = some r →
      valKeysOk (.vMap new) = true →
      lookupPathV (.vMap new) q = some (.vMap m) →
      alookup m k = none →
      lookupPathV (.vMap r) (q ++ k :: tail) = lookupPathV (.vMap cur) (q ++ k :: tail) := by
  induction q with
  | nil =>
      intro cur new r m k tail h hvk hq hk
      rw [lookupPathV_nil] at hq
      injection hq with hq
      injection hq with hq
      subst hq
      have habs := combineDicts_alookup_of_absent _ cur r k h hk
      rw [List.nil_append, lookupPathV_cons_map, lookupPathV_cons_map, habs]
  | cons a q' ih =>
      intro cur new r m k tail h hvk hq hk
      rw [lookupPathV_cons_map] at hq
      cases hna : alookup new a with
      | none => rw [hna] at hq; exact absurd hq (by simp)
      | some va =>
          rw [hna] at hq
          replace hq : lookupPathV va q' = some (.vMap m) := hq
          have htopnd := (valKeysOk_map_parts new hvk).1
          have hstep := combineDicts_alookup_of_present new cur r a va htopnd h hna
          cases va with
          | vMap na =>
              have hvna : valKeysOk (.vMap na) = true := valKeysOk_alookup new a _ hvk hna
              rcases hstep with ⟨hcn, hrn⟩ | ⟨old, w, hco, hcw, hrw⟩
              · rw [List.cons_append, lookupPathV_cons_found r a _ _ hrn,
                  lookupPathV_cons_missing cur a _ hcn]
                exact lookupPathV_past_missing _ _ m k tail hq hk
              · rcases combineVal_map_cases old na w hcw with
                  ⟨om, ra, hold, hre, hwra⟩ | ⟨hna0, hwold⟩
                · subst hold
                  subst hwra
                  rw [List.cons_append, lookupPathV_cons_found r a _ _ hrw,
                    lookupPathV_cons_found cur a _ _ hco]
                  exact ih om na ra m k tail hre hvna hq hk
                · subst hna0
                  subst hwold
                  cases q' with
                  | nil =>
                      rw [List.cons_append, List.nil_append,
                        lookupPathV_cons_found r a _ _ hrw,
                        lookupPathV_cons_found cur a _ _ hco]
                  | cons b q'' =>
                      rw [lookupPathV_cons_missing [] b q'' (alookup_nil b)] at hq
                      exact absurd hq (by simp)
          | vInt i =>
              cases q' with
              | nil => rw [lookupPathV_nil] at hq; exact absurd hq (by simp)
              | cons b q'' => simp [lookupPathV] at hq
          | vStr sv =>
              cases q' with
              | nil => rw [lookupPathV_nil] at hq; exact absurd hq (by simp)
              | cons b q'' => simp [lookupPathV] at hq
          | vBool b =>
              cases q' with
              | nil => rw [lookupPathV_nil] at hq; exact absurd hq (by simp)
              | cons c q'' => simp [lookupPathV] at hq
          | vNull =>
              cases q' with
              | nil => rw [lookupPathV_nil] at hq; exact absurd hq (by simp)
              | cons b q'' => simp [lookupPathV] at hq
          | vSeq l =>
              cases q' with
              | nil => rw [lookupPathV_nil] at hq; exact absurd hq (by simp)
              | cons b q'' => simp [lookupPathV] at hq

/-- Witness for C9: merging `{"m": {"kept": 1, "over": 2}}` with
`{"m": {"over": 3}}`; the nested key `kept` is absent from the new
document's inner mapping and keeps its value from the accumulator. -/
theorem merge_frame_property_witness :
    lookupPathV
        (.vMap ((combineDicts [("m", .vMap [("kept", .vInt 1), ("over", .vInt 2)])]
          [("m", .vMap [("over", .vInt 3)])]).getD []))
        ["m", "kept"]
      = lookupPathV (.vMap [("m", .vMap [("kept", .vInt 1), ("over", .vInt 2)])])
          ["m", "kept"] := by
  have h : combineDicts [("m", .vMap [("kept", .vInt 1), ("over", .vInt 2)])]
      [("m", .vMap [("over", .vInt 3)])]
      = some [("m", .vMap [("kept", .vInt 1), ("over", .vInt 3)])] := by
    simp [combineDicts, combineVal, alookup, setKey]
  have := merge_frame_property ["m"]
    [("m", .vMap [("kept", .vInt 1), ("over", .vInt 2)])]
    [("m", .vMap [("over", .vInt 3)])]
    [("m", .vMap [("kept", .vInt 1), ("over", .vInt 3)])]
    [("over", .vInt 3)] "kept" [] h
    (by simp [valKeysOk, mapKeysOk, nodupKeys])
    (by simp [lookupPathV, alookup])
    (by simp [alookup])
  rw [h]
  simpa using this

/-- Witness for C1 (amended) on documents with a shared scalar, a shared
sequence, a shared nested mapping, and a fresh key. -/
theorem combine_deep_merge_rules_witness :
    combineDicts
        [("a", .vInt 1), ("s", .vSeq [.vInt 1]), ("m", .vMap [("x", .vStr "old")])]
        [("a", .vInt 2), ("s", .vSeq [.vInt 2]), ("m", .vMap [("y", .vBool true)]),
          ("n", .vNull)]
      = some (specMergeDicts
        [("a", .vInt 1), ("s", .vSeq [.vInt 1]), ("m", .vMap [("x", .vStr "old")])]
        [("a", .vInt 2), ("s", .vSeq [.vInt 2]), ("m", .vMap [("y", .vBool true)]),
          ("n", .vNull)]) :=
  combine_deep_merge_rules _ _
    (by simp [valKeysOk, mapKeysOk, nodupKeys])
    (by simp [compatDicts, compat, alookup, isScalar])

end Netplan
